import Mathlib

/-!
Shallow embedding of the n8n AWS S3 vector-store node package.

The embedded functions mirror, statement for statement:
* `VectorStoreHelper.splitText` in `custom_nodes/dist/src/VectorStoreAwsS3.node.js`
  (lines 12-34): the text chunker;
* the batch partitioning loops in `S3VectorStore.insertVectors` and in
  `VectorStoreAwsS3.execute` (insert case);
* `S3VectorStore.ensureIndexExists`: the already-exists error classification;
* the per-item execute loops of `VectorStoreAwsS3.execute` and
  `executeS3VectorInsert` together with the `continueOnFail` policy;
* the top-level operation dispatch of `S3Vector.execute`;
* the metadata-filter parsing stage of the search case of
  `VectorStoreAwsS3.execute`.

Text is modelled as `List Char`.  External collaborators (the JSON parser,
the embedding provider, the vector-storage provider, per-item processing)
are oracles passed in as function arguments.  The chunker loop of the source
has no termination guarantee, so its loop is given explicit fuel and returns
`none` when the fuel runs out before the cursor reaches the end of the text.
-/

namespace N8nS3

/-- Whitespace test matching JavaScript `String.prototype.trim` (space, tab,
line terminators, vertical tab, form feed, no-break space, BOM). -/
def isJsWS (c : Char) : Bool :=
  c = ' ' || c = '\t' || c = '\n' || c = '\r' || c = Char.ofNat 11 || c = Char.ofNat 12 ||
    c = Char.ofNat 160 || c = Char.ofNat 8232 || c = Char.ofNat 8233 || c = Char.ofNat 65279

/-- Embedding of JavaScript `chunk.trim()` on a list of characters. -/
def jsTrim (l : List Char) : List Char :=
  ((l.dropWhile isJsWS).reverse.dropWhile isJsWS).reverse

/-- Embedding of JavaScript `text.slice(s, e)` for `0 ≤ s, e` (clamped at the
end of the text, empty when `e ≤ s`). -/
def jsSlice (t : List Char) (s e : Nat) : List Char :=
  (t.drop s).take (e - s)

/-- Embedding of JavaScript `text.lastIndexOf(' ', n)`: the largest index
`i ≤ n` holding a space, `none` when there is no such index (the source
compares the `-1` result with `> start`, embedded below as the `none` case). -/
def lastSpaceFrom (t : List Char) : Nat → Option Nat
  | 0 => if t[0]? = some ' ' then some 0 else none
  | n + 1 => if t[n + 1]? = some ' ' then some (n + 1) else lastSpaceFrom t n

/-- Window end of one chunker iteration, `VectorStoreAwsS3.node.js` lines
19-26: `end = start + chunkSize`; if `end < text.length`, search the last
space at or before `end` and move `end` there when that space lies strictly
after `start`. -/
def computeEnd (t : List Char) (chunkSize s : Nat) : Nat :=
  if s + chunkSize < t.length then
    match lastSpaceFrom t (s + chunkSize) with
    | some p => if s < p then p else s + chunkSize
    | none => s + chunkSize
  else s + chunkSize

/-- Cursor update, lines 29-31: `start = end - chunkOverlap; if (start <= 0)
start = end` (in integers `end - chunkOverlap ≤ 0` is `end ≤ chunkOverlap`). -/
def nextStart (e chunkOverlap : Nat) : Nat :=
  if e ≤ chunkOverlap then e else e - chunkOverlap

/-- One full cursor step of the chunker loop. -/
def stepStart (t : List Char) (chunkSize chunkOverlap s : Nat) : Nat :=
  nextStart (computeEnd t chunkSize s) chunkOverlap

/-- The chunker loop (lines 18-32), recording the `(start, end)` pair of every
pushed chunk.  The source loop has no termination guarantee, so the embedding
takes fuel and answers `none` when the fuel is exhausted while `start` is
still below the length of the text. -/
def splitIntervals (t : List Char) (chunkSize chunkOverlap : Nat) :
    Nat → Nat → Option (List (Nat × Nat))
  | 0, s => if s < t.length then none else some []
  | fuel + 1, s =>
    if s < t.length then
      (splitIntervals t chunkSize chunkOverlap fuel (stepStart t chunkSize chunkOverlap s)).map
        (fun ps => (s, computeEnd t chunkSize s) :: ps)
    else some []

/-- Filter of line 33: `chunks.filter(chunk => chunk.trim().length > 0)`. -/
def keepChunk (c : List Char) : Bool :=
  decide (0 < (jsTrim c).length)

/-- Embedding of `VectorStoreHelper.splitText` (lines 12-34).  A chunk pushed
at `(start, end)` is `text.slice(start, end)`, realised by slicing the
recorded intervals; the final filter drops whitespace-only chunks.  Texts no
longer than `chunkSize` are returned whole without entering the loop and
without the filter. -/
def splitText (t : List Char) (chunkSize chunkOverlap fuel : Nat) :
    Option (List (List Char)) :=
  if t.length ≤ chunkSize then some [t]
  else
    (splitIntervals t chunkSize chunkOverlap fuel 0).map
      (fun ps => (ps.map (fun p => jsSlice t p.1 p.2)).filter keepChunk)

/-- The chunker loop runs forever on `(t, chunkSize, chunkOverlap)`: no fuel
bound suffices. -/
def SplitDiverges (t : List Char) (chunkSize chunkOverlap : Nat) : Prop :=
  ∀ fuel, splitText t chunkSize chunkOverlap fuel = none

/-- Batch partition loop shared by `S3VectorStore.insertVectors`
(`for (i = 0; i < vectors.length; i += batchSize) batch = vectors.slice(i, i
+ batchSize)`, with `batchSize = 100`) and the insert case of
`VectorStoreAwsS3.execute` (same loop with the configured batch size).  The
fuel argument only bounds iterations; `batchSlices` supplies enough of it. -/
def batchSlicesGo {α : Type} (bs : Nat) : Nat → List α → List (List α)
  | _, [] => []
  | 0, _ :: _ => []
  | fuel + 1, a :: l => (a :: l).take bs :: batchSlicesGo bs fuel (l.drop (bs - 1))

/-- The batch partition of a record list.  A batch size of `0` cannot reach
the source loops (the node computes `options.batchSize || 100`, and `0` is
falsy); the guard only keeps the embedding total. -/
def batchSlices {α : Type} (bs : Nat) (l : List α) : List (List α) :=
  if bs = 0 then [] else batchSlicesGo bs l.length l

/-- Effective batch size of the insert case: `options.batchSize || 100`
(unset and `0` are falsy and fall back to `100`). -/
def effBatchSize (opt : Option Nat) : Nat :=
  match opt with
  | none => 100
  | some 0 => 100
  | some (b + 1) => b + 1

/-- Sequential issue of one provider insert call per batch, stopping at the
first failing call: returns the batches durably inserted before the failure
and the failing batch, if any.  `ok` is the provider oracle. -/
def attemptBatches {α : Type} (ok : List α → Bool) :
    List (List α) → List (List α) × Option (List α)
  | [] => ([], none)
  | b :: rest =>
    if ok b then
      ((b :: (attemptBatches ok rest).1), (attemptBatches ok rest).2)
    else ([], some b)

/-- Error shape surfaced by the vector-storage provider SDK: an error name
and an optional message. -/
structure ProviderError where
  name : String
  message : Option String

/-- Does `nee` occur at the head of the second list? -/
def beginsWith : List Char → List Char → Bool
  | [], _ => true
  | _ :: _, [] => false
  | a :: as, b :: bs => a = b && beginsWith as bs

/-- Embedding of JavaScript `hay.includes(nee)`: does `nee` occur as a
contiguous run inside the second list? -/
def containsSub (nee : List Char) : List Char → Bool
  | [] => beginsWith nee []
  | c :: rest => beginsWith nee (c :: rest) || containsSub nee rest

/-- Already-exists classification of `S3VectorStore.ensureIndexExists`
(part_000 lines 261-263): error name `ResourceAlreadyExistsException` or
`ConflictException`, or a message containing `already exists`. -/
def isAlreadyExists (e : ProviderError) : Bool :=
  e.name = "ResourceAlreadyExistsException" || e.name = "ConflictException" ||
    (match e.message with
     | some m => containsSub ("already exists".data) m.data
     | none => false)

/-- Message text extracted from a provider error (the source reads
`error.message` for `Error` values and stringifies anything else; the
stringified fallback is modelled by the error name). -/
def errorText (e : ProviderError) : String :=
  match e.message with
  | some m => m
  | none => e.name

/-- Embedding of `S3VectorStore.ensureIndexExists` (part_000 lines 246-270),
applied to the outcome of the provider create-index call: a success or an
already-exists error is a no-op success, any other error is rethrown wrapped
in the fixed failure message. -/
def ensureIndexExists (resp : Except ProviderError Unit) : Except String Unit :=
  match resp with
  | Except.ok _ => Except.ok ()
  | Except.error e =>
    if isAlreadyExists e then Except.ok ()
    else Except.error ("Failed to ensure vector index exists: " ++ errorText e)

/-- Modelled external provider: creating an index that already exists yields
`ResourceAlreadyExistsException`, otherwise the index is created.  The
Boolean state records whether the index exists. -/
def providerCreateIndex (indexPresent : Bool) : Bool × Except ProviderError Unit :=
  if indexPresent then
    (true, Except.error ⟨"ResourceAlreadyExistsException", some "index already exists"⟩)
  else (true, Except.ok ())

/-- One `ensureIndexExists` call against the modelled provider, returning the
new provider state and the call outcome. -/
def ensureIndexOn (indexPresent : Bool) : Bool × Except String Unit :=
  ((providerCreateIndex indexPresent).1, ensureIndexExists (providerCreateIndex indexPresent).2)

/-- One output record of `VectorStoreAwsS3.execute`: a success payload, or
the failed-result entry `{success: false, error, operation, itemIndex}`
pushed when `continueOnFail()` holds. -/
inductive AwsRecord (β : Type) where
  | success (v : β)
  | failed (error : String) (itemIndex : Nat)
deriving DecidableEq

/-- The per-item loop of `VectorStoreAwsS3.execute` (lines 329-524): each
item is processed inside its own try/catch; on failure, with `cont` (the
`continueOnFail()` flag) a failed record is appended and the loop continues,
without it the loop rethrows and no output list is produced.  `proc` is the
per-item body (operation dispatch and provider calls), an oracle. -/
def awsS3ExecuteLoop {α β : Type} (cont : Bool) (proc : Nat → α → Except String β) :
    List α → Nat → Except String (List (AwsRecord β))
  | [], _ => Except.ok []
  | a :: rest, i =>
    match proc i a with
    | Except.ok b =>
      (awsS3ExecuteLoop cont proc rest (i + 1)).map (fun r => AwsRecord.success b :: r)
    | Except.error m =>
      if cont then
        (awsS3ExecuteLoop cont proc rest (i + 1)).map (fun r => AwsRecord.failed m i :: r)
      else Except.error m

/-- The output list the continue-on-failure loop produces: one record per
item, successes and failed entries in input order. -/
def contResults {α β : Type} (proc : Nat → α → Except String β) :
    List α → Nat → List (AwsRecord β)
  | [], _ => []
  | a :: rest, i =>
    (match proc i a with
     | Except.ok b => AwsRecord.success b
     | Except.error m => AwsRecord.failed m i) :: contResults proc rest (i + 1)

/-- One output record of `executeS3VectorInsert` / `executeS3VectorSearch` in
`S3Vector.node.ts`: success payload or `{success: false, error}`. -/
inductive S3vRecord (β : Type) where
  | success (v : β)
  | failed (error : String)
deriving DecidableEq

/-- The per-item loop of `executeS3VectorInsert` (`S3Vector.node.ts` lines
275-306): a failed record is pushed, then without `continueOnFail()` the loop
rethrows `NodeOperationError(errorMsg)`, discarding the accumulated list. -/
def s3vInsertLoop {α β : Type} (cont : Bool) (proc : Nat → α → Except String β) :
    List α → Nat → Except String (List (S3vRecord β))
  | [], _ => Except.ok []
  | a :: rest, i =>
    match proc i a with
    | Except.ok b =>
      (s3vInsertLoop cont proc rest (i + 1)).map (fun r => S3vRecord.success b :: r)
    | Except.error m =>
      if cont then
        (s3vInsertLoop cont proc rest (i + 1)).map (fun r => S3vRecord.failed m :: r)
      else Except.error m

/-- Top-level dispatch of `S3Vector.execute` (`S3Vector.node.ts` lines
139-166): the insert and search branches catch any error of their body, only
log it, break out of the switch and reach the trailing
`throw NodeOperationError('Unsupported operation: ...')`; an unknown
operation throws `Unknown operation` from the default branch. -/
def s3vExecute {β : Type} (operation : String)
    (insertRun searchRun : Except String (List (S3vRecord β))) :
    Except String (List (S3vRecord β)) :=
  if operation = "insert" then
    match insertRun with
    | Except.ok r => Except.ok r
    | Except.error _ => Except.error ("Unsupported operation: " ++ operation)
  else if operation = "search" then
    match searchRun with
    | Except.ok r => Except.ok r
    | Except.error _ => Except.error ("Unsupported operation: " ++ operation)
  else Except.error ("Unknown operation: " ++ operation)

/-- External calls the search case can issue, in order: the query embedding
(`embeddings.embedQuery`) and the vector-store query. -/
inductive ExtCall where
  | embed
  | query
deriving DecidableEq

/-- The metadata-filter stage of the search case of `VectorStoreAwsS3.execute`
(lines 437-452) together with the external calls the rest of the case makes:
`if (options.metadataFilter)` runs `JSON.parse` only on a truthy (non-empty)
string and throws the configuration error on a parse failure before the
embedding and query calls; otherwise the case proceeds to embed then query.
`parse` is the JSON.parse oracle (`none` marks a syntactically invalid
string); the successful downstream path is abstracted as issuing its two
external calls. -/
def searchItemRun {φ : Type} (metadataFilter : Option String) (parse : String → Option φ) :
    List ExtCall × Except String Unit :=
  match metadataFilter with
  | some s =>
    if s = "" then ([ExtCall.embed, ExtCall.query], Except.ok ())
    else
      match parse s with
      | some _ => ([ExtCall.embed, ExtCall.query], Except.ok ())
      | none => ([], Except.error "Invalid JSON in metadata filter")
  | none => ([ExtCall.embed, ExtCall.query], Except.ok ())

/-- A JSON.parse oracle rejecting every string; it agrees with JSON.parse on
the empty string, the only point where it is used. -/
def parseNoneFn : String → Option Unit :=
  fun _ => none

/-- Fixture: per-item body failing exactly on item index 1. -/
def witnessProc : Nat → Nat → Except String Nat :=
  fun j x => if j = 1 then Except.error "boom" else Except.ok x

/-- Fixture: three input items. -/
def witnessItems : List Nat := [10, 20, 30]

/-! Chunker lemmas. -/

theorem lastSpaceFrom_le (t : List Char) : ∀ n p, lastSpaceFrom t n = some p → p ≤ n := by
  intro n
  induction n with
  | zero =>
    intro p h
    simp only [lastSpaceFrom] at h
    split at h
    · exact (Option.some.inj h) ▸ Nat.le_refl 0
    · cases h
  | succ n ih =>
    intro p h
    simp only [lastSpaceFrom] at h
    split at h
    · exact (Option.some.inj h) ▸ Nat.le_refl _
    · exact Nat.le_succ_of_le (ih p h)

theorem lastSpaceFrom_mono (t : List Char) : ∀ n1 n2 p,
    lastSpaceFrom t n1 = some p → p ≤ n2 → n2 ≤ n1 → lastSpaceFrom t n2 = some p := by
  intro n1
  induction n1 with
  | zero =>
    intro n2 p h hp hn
    have : n2 = 0 := Nat.le_zero.mp hn
    subst this
    exact h
  | succ n ih =>
    intro n2 p h hp hn
    rcases Nat.eq_or_lt_of_le hn with heq | hlt
    · subst heq
      exact h
    · have hn2 : n2 ≤ n := Nat.lt_succ_iff.mp hlt
      simp only [lastSpaceFrom] at h
      split at h
      · have := Option.some.inj h
        omega
      · exact ih n2 p h hp hn2

theorem computeEnd_gt (t : List Char) (chunkSize s : Nat) (hcs : 0 < chunkSize) :
    s < computeEnd t chunkSize s := by
  by_cases hlen : s + chunkSize < t.length
  · cases hsp : lastSpaceFrom t (s + chunkSize) with
    | none =>
      simp only [computeEnd, if_pos hlen, hsp]
      omega
    | some p =>
      by_cases hp : s < p
      · simp only [computeEnd, if_pos hlen, hsp, if_pos hp]
        exact hp
      · simp only [computeEnd, if_pos hlen, hsp, if_neg hp]
        omega
  · simp only [computeEnd, if_neg hlen]
    omega

theorem computeEnd_le (t : List Char) (chunkSize s : Nat) :
    computeEnd t chunkSize s ≤ s + chunkSize := by
  by_cases hlen : s + chunkSize < t.length
  · cases hsp : lastSpaceFrom t (s + chunkSize) with
    | none =>
      simp only [computeEnd, if_pos hlen, hsp]
      omega
    | some p =>
      have hple := lastSpaceFrom_le t (s + chunkSize) p hsp
      by_cases hp : s < p
      · simp only [computeEnd, if_pos hlen, hsp, if_pos hp]
        omega
      · simp only [computeEnd, if_pos hlen, hsp, if_neg hp]
        omega
  · simp only [computeEnd, if_neg hlen]
    omega

theorem nextStart_le (e co : Nat) : nextStart e co ≤ e := by
  unfold nextStart
  split <;> omega

theorem stepStart_le (t : List Char) (cs co s : Nat) :
    stepStart t cs co s ≤ computeEnd t cs s :=
  nextStart_le _ _

/-- When the cursor update fails to advance, the very next update is a fixed
point: the same space is found again and the same cursor value is produced,
so the loop can never leave it. -/
theorem step_fix (t : List Char) (cs co s : Nat) (hcs : 0 < cs) (hco : co < cs)
    (_hs : s < t.length) (hdec : stepStart t cs co s ≤ s) :
    stepStart t cs co (stepStart t cs co s) = stepStart t cs co s := by
  have he : s < computeEnd t cs s := computeEnd_gt t cs s hcs
  by_cases heco : computeEnd t cs s ≤ co
  · unfold stepStart nextStart at hdec
    rw [if_pos heco] at hdec
    omega
  · have hdec2 : computeEnd t cs s - co ≤ s := by
      unfold stepStart nextStart at hdec
      rw [if_neg heco] at hdec
      exact hdec
    by_cases hlen : s + cs < t.length
    · cases hsp : lastSpaceFrom t (s + cs) with
      | none =>
        have heq : computeEnd t cs s = s + cs := by
          simp only [computeEnd, if_pos hlen, hsp]
        omega
      | some p =>
        by_cases hp : s < p
        · have heq : computeEnd t cs s = p := by
            simp only [computeEnd, if_pos hlen, hsp, if_pos hp]
          rw [heq] at heco hdec2
          have hpco : co < p := by omega
          have hco0 : 0 < co := by omega
          have hstep : stepStart t cs co s = p - co := by
            unfold stepStart nextStart
            rw [heq, if_neg (by omega : ¬ p ≤ co)]
          have hlen2 : (p - co) + cs < t.length := by omega
          have hple := lastSpaceFrom_le t (s + cs) p hsp
          have hsp2 : lastSpaceFrom t ((p - co) + cs) = some p :=
            lastSpaceFrom_mono t (s + cs) ((p - co) + cs) p hsp (by omega) (by omega)
          have he2 : computeEnd t cs (p - co) = p := by
            simp only [computeEnd, if_pos hlen2, hsp2, if_pos (by omega : p - co < p)]
          rw [hstep]
          unfold stepStart nextStart
          rw [he2, if_neg (by omega : ¬ p ≤ co)]
        · have heq : computeEnd t cs s = s + cs := by
            simp only [computeEnd, if_pos hlen, hsp, if_neg hp]
          omega
    · have heq : computeEnd t cs s = s + cs := by
        simp only [computeEnd, if_neg hlen]
      omega

/-- From a fixed point of the cursor update strictly inside the text, the
loop never finishes: every fuel bound is exhausted. -/
theorem splitIntervals_none_of_fix (t : List Char) (cs co s : Nat)
    (hs : s < t.length) (hfix : stepStart t cs co s = s) :
    ∀ fuel, splitIntervals t cs co fuel s = none := by
  intro fuel
  induction fuel with
  | zero => simp [splitIntervals, hs]
  | succ n ih => simp [splitIntervals, hs, hfix, ih]

/-- A run that finishes made strict progress at its first step. -/
theorem step_lt_of_some (t : List Char) (cs co s fuel : Nat) (ps : List (Nat × Nat))
    (hcs : 0 < cs) (hco : co < cs) (hs : s < t.length)
    (hsome : splitIntervals t cs co fuel (stepStart t cs co s) = some ps) :
    s < stepStart t cs co s := by
  by_contra hle
  push_neg at hle
  have hfix := step_fix t cs co s hcs hco hs hle
  have hlt : stepStart t cs co s < t.length := lt_of_le_of_lt hle hs
  have hnone := splitIntervals_none_of_fix t cs co _ hlt hfix fuel
  rw [hnone] at hsome
  cases hsome

theorem splitIntervals_bounds (t : List Char) (cs co : Nat) (hcs : 0 < cs) :
    ∀ fuel s ps, splitIntervals t cs co fuel s = some ps →
      ∀ p ∈ ps, p.1 < p.2 ∧ p.2 ≤ p.1 + cs := by
  intro fuel
  induction fuel with
  | zero =>
    intro s ps h p hp
    by_cases hs : s < t.length
    · simp [splitIntervals, hs] at h
    · simp [splitIntervals, hs] at h
      subst h
      cases hp
  | succ n ih =>
    intro s ps h p hp
    by_cases hs : s < t.length
    · simp only [splitIntervals, if_pos hs] at h
      obtain ⟨ps2, h2, hcons⟩ := Option.map_eq_some'.mp h
      subst hcons
      rcases List.mem_cons.mp hp with heq | hp2
      · subst heq
        exact ⟨computeEnd_gt t cs s hcs, computeEnd_le t cs s⟩
      · exact ih _ ps2 h2 p hp2
    · simp [splitIntervals, hs] at h
      subst h
      cases hp

theorem splitIntervals_head (t : List Char) (cs co : Nat) :
    ∀ fuel s p ps, splitIntervals t cs co fuel s = some (p :: ps) →
      p = (s, computeEnd t cs s) := by
  intro fuel s p ps h
  cases fuel with
  | zero =>
    by_cases hs : s < t.length <;> simp [splitIntervals, hs] at h
  | succ n =>
    by_cases hs : s < t.length
    · simp only [splitIntervals, if_pos hs] at h
      obtain ⟨ps2, _, hcons⟩ := Option.map_eq_some'.mp h
      have := (List.cons.injEq _ _ _ _).mp hcons
      exact this.1.symm
    · simp [splitIntervals, hs] at h

theorem splitIntervals_chain (t : List Char) (cs co : Nat) (hcs : 0 < cs) (hco : co < cs) :
    ∀ fuel s ps, splitIntervals t cs co fuel s = some ps →
      List.Chain' (fun p q => p.1 < q.1) ps := by
  intro fuel
  induction fuel with
  | zero =>
    intro s ps h
    by_cases hs : s < t.length
    · simp [splitIntervals, hs] at h
    · simp [splitIntervals, hs] at h
      subst h
      exact List.chain'_nil
  | succ n ih =>
    intro s ps h
    by_cases hs : s < t.length
    · simp only [splitIntervals, if_pos hs] at h
      obtain ⟨ps2, h2, hcons⟩ := Option.map_eq_some'.mp h
      subst hcons
      refine List.chain'_cons'.mpr ⟨?_, ih _ ps2 h2⟩
      intro q hq
      cases ps2 with
      | nil => cases hq
      | cons p2 rest =>
        have hq2 : p2 = q := by simpa using hq
        subst hq2
        have hp2 := splitIntervals_head t cs co n (stepStart t cs co s) p2 rest h2
        have hlt := step_lt_of_some t cs co s n (p2 :: rest) hcs hco hs h2
        rw [hp2]
        exact hlt
    · simp [splitIntervals, hs] at h
      subst h
      exact List.chain'_nil

theorem splitIntervals_cover (t : List Char) (cs co : Nat) :
    ∀ fuel s ps, splitIntervals t cs co fuel s = some ps →
      ∀ i, s ≤ i → i < t.length → ∃ p ∈ ps, p.1 ≤ i ∧ i < p.2 := by
  intro fuel
  induction fuel with
  | zero =>
    intro s ps h i hsi hi
    by_cases hs : s < t.length
    · simp [splitIntervals, hs] at h
    · omega
  | succ n ih =>
    intro s ps h i hsi hi
    by_cases hs : s < t.length
    · simp only [splitIntervals, if_pos hs] at h
      obtain ⟨ps2, h2, hcons⟩ := Option.map_eq_some'.mp h
      subst hcons
      by_cases hie : i < computeEnd t cs s
      · exact ⟨(s, computeEnd t cs s), List.mem_cons_self _ _, hsi, hie⟩
      · have hstep : stepStart t cs co s ≤ i :=
          le_trans (stepStart_le t cs co s) (not_lt.mp hie)
        obtain ⟨p, hp, hpi⟩ := ih (stepStart t cs co s) ps2 h2 i hstep hi
        exact ⟨p, List.mem_cons_of_mem _ hp, hpi⟩
    · omega

theorem splitIntervals_start0 (t : List Char) (cs co fuel : Nat) (ps : List (Nat × Nat))
    (hlen : cs < t.length) (h : splitIntervals t cs co fuel 0 = some ps) :
    ∃ e ps2, ps = (0, e) :: ps2 := by
  have h0 : 0 < t.length := lt_of_le_of_lt (Nat.zero_le cs) hlen
  cases fuel with
  | zero => simp [splitIntervals, h0] at h
  | succ n =>
    simp only [splitIntervals, if_pos h0] at h
    obtain ⟨ps2, _, hcons⟩ := Option.map_eq_some'.mp h
    exact ⟨computeEnd t cs 0, ps2, hcons.symm⟩

/-- Non-termination witness builder: when the first cursor step lands on a
fixed point of the cursor update inside a long text, the chunker diverges. -/
theorem splitDiverges_of_fix (t : List Char) (cs co : Nat) (hlen : cs < t.length)
    (hs1 : stepStart t cs co 0 < t.length)
    (hfix : stepStart t cs co (stepStart t cs co 0) = stepStart t cs co 0) :
    SplitDiverges t cs co := by
  intro fuel
  have h0 : 0 < t.length := lt_of_le_of_lt (Nat.zero_le cs) hlen
  unfold splitText
  rw [if_neg (by omega : ¬ t.length ≤ cs)]
  suffices h : splitIntervals t cs co fuel 0 = none by rw [h]; rfl
  cases fuel with
  | zero => simp [splitIntervals, h0]
  | succ n =>
    simp only [splitIntervals, if_pos h0]
    rw [splitIntervals_none_of_fix t cs co _ hs1 hfix n]
    rfl

/-- Whitespace-only chunks trim to nothing. -/
theorem jsTrim_eq_nil_of_all (l : List Char) (h : ∀ x ∈ l, isJsWS x = true) :
    jsTrim l = [] := by
  unfold jsTrim
  have h1 : l.dropWhile isJsWS = [] := List.dropWhile_eq_nil_iff.mpr h
  rw [h1]
  rfl

theorem jsSlice_mem (t : List Char) (s e : Nat) (x : Char) (hx : x ∈ jsSlice t s e) :
    x ∈ t := by
  unfold jsSlice at hx
  exact List.mem_of_mem_drop (List.mem_of_mem_take hx)

theorem jsSlice_length_le (t : List Char) (s e cs : Nat) (h : e ≤ s + cs) :
    (jsSlice t s e).length ≤ cs := by
  unfold jsSlice
  rw [List.length_take]
  omega

/-! C1, C3, C4, C5 theorems. -/

/-- C1: refuted by the code — the chunker does NOT terminate on every valid
input.  The source only resets the cursor when `windowEnd - chunkOverlap ≤ 0`
and never compares it with the previous start, so on the text
`abcd efghijkl` with `chunkSize = 5`, `chunkOverlap = 3` (valid: `0 ≤ 3 < 5`)
the cursor reaches 1, the word-boundary search keeps returning the space at
index 4, and the cursor stays at `4 - 3 = 1` forever: no fuel bound makes the
loop finish. -/
theorem c1_splitText_infinite_loop :
    3 < 5 ∧ 5 < ("abcd efghijkl".data).length ∧
      SplitDiverges ("abcd efghijkl".data) 5 3 :=
  ⟨by decide, by decide,
    splitDiverges_of_fix ("abcd efghijkl".data) 5 3 (by decide) (by decide) (by decide)⟩

/-- C3 (counterexample): the claim fails as stated.  The whitespace-only text
made of a single space, with valid parameters `chunkSize = 1 > chunkOverlap
= 0`, is returned whole by the short-text branch — the result is the
one-element sequence holding the space, not the empty sequence, and that
element is whitespace-only after trimming. -/
theorem c3_whitespace_counterexample :
    splitText [' '] 1 0 1 = some [[' ']] ∧ (jsTrim [' ']).length = 0 ∧ 0 < 1 := by
  refine ⟨rfl, ?_, Nat.one_pos⟩
  decide

/-- C3 (amended): texts no longer than `chunkSize` are returned whole even
when empty or whitespace-only; only for longer texts does the final filter
([line 33]) guarantee that every returned element is non-whitespace after
trimming, and there a whitespace-only input yields the empty sequence. -/
theorem c3_trim_filter_amended (t : List Char) (cs co fuel : Nat) (r : List (List Char))
    (hrun : splitText t cs co fuel = some r) :
    (t.length ≤ cs → r = [t]) ∧
    (cs < t.length → ∀ c ∈ r, 0 < (jsTrim c).length) ∧
    (cs < t.length → (∀ c ∈ t, isJsWS c = true) → r = []) := by
  refine ⟨?_, ?_, ?_⟩
  · intro hle
    unfold splitText at hrun
    rw [if_pos hle] at hrun
    exact (Option.some.inj hrun).symm
  · intro hlt c hc
    unfold splitText at hrun
    rw [if_neg (by omega : ¬ t.length ≤ cs)] at hrun
    obtain ⟨ps, _, hflt⟩ := Option.map_eq_some'.mp hrun
    subst hflt
    have hkc := List.of_mem_filter hc
    unfold keepChunk at hkc
    exact of_decide_eq_true hkc
  · intro hlt hws
    unfold splitText at hrun
    rw [if_neg (by omega : ¬ t.length ≤ cs)] at hrun
    obtain ⟨ps, _, hflt⟩ := Option.map_eq_some'.mp hrun
    subst hflt
    rw [List.filter_eq_nil_iff]
    intro c hc
    obtain ⟨p, _, hcp⟩ := List.mem_map.mp hc
    subst hcp
    have hall : ∀ x ∈ jsSlice t p.1 p.2, isJsWS x = true :=
      fun x hx => hws x (jsSlice_mem t p.1 p.2 x hx)
    have htr : jsTrim (jsSlice t p.1 p.2) = [] := jsTrim_eq_nil_of_all _ hall
    simp [keepChunk, htr]

/-- C3 (amended) witness at a concrete long input: for the three-character
text holding one space with `chunkSize = 1`, `chunkOverlap = 0`, the chunker
keeps only the two non-whitespace chunks. -/
theorem c3_trim_filter_amended_witness :
    (("a b".data).length ≤ 1 → ["a".data, "b".data] = ["a b".data]) ∧
    (1 < ("a b".data).length →
      ∀ c ∈ [("a".data : List Char), "b".data], 0 < (jsTrim c).length) ∧
    (1 < ("a b".data).length → (∀ c ∈ "a b".data, isJsWS c = true) →
      ["a".data, "b".data] = []) :=
  c3_trim_filter_amended ("a b".data) 1 0 5 ["a".data, "b".data] (by decide)

/-- C4: a text no longer than `chunkSize` is returned as the single chunk
`[text]`, with no splitting, for every overlap value and fuel. -/
theorem c4_short_text_single_chunk (t : List Char) (cs co fuel : Nat)
    (hle : t.length ≤ cs) :
    splitText t cs co fuel = some [t] := by
  unfold splitText
  rw [if_pos hle]

/-- C4 witness on a concrete short text. -/
theorem c4_short_text_single_chunk_witness :
    splitText ("hi".data) 5 2 0 = some ["hi".data] :=
  c4_short_text_single_chunk ("hi".data) 5 2 0 (by decide)

/-- C5 (counterexample): the claim quantifies over every text longer than
`chunkSize` with valid parameters, but on this fifteen-character text with
`chunkSize = 5`, `chunkOverlap = 3` the chunker never returns at all (the
cursor sticks at index 1), so it returns no sequence with the claimed shape. -/
theorem c5_divergence_counterexample :
    5 < ("wxyz qrstuvwxyz".data).length ∧ 3 < 5 ∧
      SplitDiverges ("wxyz qrstuvwxyz".data) 5 3 :=
  ⟨by decide, by decide,
    splitDiverges_of_fix ("wxyz qrstuvwxyz".data) 5 3 (by decide) (by decide) (by decide)⟩

/-- C5 (amended): on every long input on which the chunker terminates, the
returned chunks are the slices at the recorded intervals minus the
whitespace-only ones; the intervals start at 0, each is non-empty and no
wider than `chunkSize`, their start positions strictly increase, they jointly
cover every character position of the text, and every returned chunk has
length at most `chunkSize`. -/
theorem c5_long_text_structure (t : List Char) (cs co fuel : Nat) (r : List (List Char))
    (hcs : 0 < cs) (hco : co < cs) (hlen : cs < t.length)
    (hrun : splitText t cs co fuel = some r) :
    ∃ ps, splitIntervals t cs co fuel 0 = some ps ∧
      r = (ps.map (fun p => jsSlice t p.1 p.2)).filter keepChunk ∧
      (∃ e ps2, ps = (0, e) :: ps2) ∧
      (∀ p ∈ ps, p.1 < p.2 ∧ p.2 ≤ p.1 + cs) ∧
      List.Chain' (fun p q => p.1 < q.1) ps ∧
      (∀ i, i < t.length → ∃ p ∈ ps, p.1 ≤ i ∧ i < p.2) ∧
      (∀ c ∈ r, c.length ≤ cs) := by
  unfold splitText at hrun
  rw [if_neg (by omega : ¬ t.length ≤ cs)] at hrun
  obtain ⟨ps, hps, hflt⟩ := Option.map_eq_some'.mp hrun
  subst hflt
  refine ⟨ps, hps, rfl, splitIntervals_start0 t cs co fuel ps hlen hps,
    splitIntervals_bounds t cs co hcs fuel 0 ps hps,
    splitIntervals_chain t cs co hcs hco fuel 0 ps hps,
    fun i hi => splitIntervals_cover t cs co fuel 0 ps hps i (Nat.zero_le i) hi, ?_⟩
  intro c hc
  obtain ⟨p, hpmem, hcp⟩ := List.mem_map.mp (List.mem_of_mem_filter hc)
  subst hcp
  exact jsSlice_length_le t p.1 p.2 cs
    (splitIntervals_bounds t cs co hcs fuel 0 ps hps p hpmem).2

/-- C5 (amended) witness on the six-character text with `chunkSize = 4`,
`chunkOverlap = 1`: the run terminates with intervals `(0,4), (3,7)`. -/
theorem c5_long_text_structure_witness :
    ∃ ps, splitIntervals ("abcdef".data) 4 1 10 0 = some ps ∧
      ["abcd".data, "def".data] =
        (ps.map (fun p => jsSlice ("abcdef".data) p.1 p.2)).filter keepChunk ∧
      (∃ e ps2, ps = (0, e) :: ps2) ∧
      (∀ p ∈ ps, p.1 < p.2 ∧ p.2 ≤ p.1 + 4) ∧
      List.Chain' (fun p q => p.1 < q.1) ps ∧
      (∀ i, i < ("abcdef".data).length → ∃ p ∈ ps, p.1 ≤ i ∧ i < p.2) ∧
      (∀ c ∈ [("abcd".data : List Char), "def".data], c.length ≤ 4) :=
  c5_long_text_structure ("abcdef".data) 4 1 10 ["abcd".data, "def".data]
    (by decide) (by decide) (by decide) (by decide)

/-! C9 lemmas: the split positions depend only on the positions of spaces
and of whitespace, never on the other characters. -/

theorem boolEqOfIff (a b : Bool) (h : a = true ↔ b = true) : a = b := by
  cases a <;> cases b <;> simp_all

theorem length_eq_of_ws_agree (t1 t2 : List Char)
    (hws : ∀ i : Nat, (t1[i]?).map isJsWS = (t2[i]?).map isJsWS) :
    t1.length = t2.length := by
  apply Nat.le_antisymm
  · have h2 : t2[t2.length]? = none := List.getElem?_eq_none_iff.mpr (Nat.le_refl _)
    have hm := hws t2.length
    rw [h2] at hm
    refine List.getElem?_eq_none_iff.mp ?_
    cases h : t1[t2.length]? with
    | none => rfl
    | some c =>
      rw [h] at hm
      cases hm
  · have h1 : t1[t1.length]? = none := List.getElem?_eq_none_iff.mpr (Nat.le_refl _)
    have hm := hws t1.length
    rw [h1] at hm
    refine List.getElem?_eq_none_iff.mp ?_
    cases h : t2[t1.length]? with
    | none => rfl
    | some c =>
      rw [h] at hm
      cases hm

theorem lastSpaceFrom_congr (t1 t2 : List Char)
    (hsp : ∀ i : Nat, (t1[i]? = some ' ') ↔ (t2[i]? = some ' ')) :
    ∀ n, lastSpaceFrom t1 n = lastSpaceFrom t2 n := by
  intro n
  induction n with
  | zero =>
    by_cases h : t1[0]? = some ' '
    · simp only [lastSpaceFrom, if_pos h, if_pos ((hsp 0).mp h)]
    · simp only [lastSpaceFrom, if_neg h, if_neg (fun hh => h ((hsp 0).mpr hh))]
  | succ n ih =>
    by_cases h : t1[n + 1]? = some ' '
    · simp only [lastSpaceFrom, if_pos h, if_pos ((hsp (n + 1)).mp h)]
    · simp only [lastSpaceFrom, if_neg h, if_neg (fun hh => h ((hsp (n + 1)).mpr hh))]
      exact ih

theorem computeEnd_congr (t1 t2 : List Char) (cs : Nat)
    (hl : t1.length = t2.length)
    (hsp : ∀ i : Nat, (t1[i]? = some ' ') ↔ (t2[i]? = some ' ')) :
    ∀ s, computeEnd t1 cs s = computeEnd t2 cs s := by
  intro s
  unfold computeEnd
  rw [hl, lastSpaceFrom_congr t1 t2 hsp (s + cs)]

theorem stepStart_congr (t1 t2 : List Char) (cs co : Nat)
    (hl : t1.length = t2.length)
    (hsp : ∀ i : Nat, (t1[i]? = some ' ') ↔ (t2[i]? = some ' ')) :
    ∀ s, stepStart t1 cs co s = stepStart t2 cs co s := by
  intro s
  unfold stepStart
  rw [computeEnd_congr t1 t2 cs hl hsp s]

theorem splitIntervals_congr (t1 t2 : List Char) (cs co : Nat)
    (hl : t1.length = t2.length)
    (hsp : ∀ i : Nat, (t1[i]? = some ' ') ↔ (t2[i]? = some ' ')) :
    ∀ fuel s, splitIntervals t1 cs co fuel s = splitIntervals t2 cs co fuel s := by
  intro fuel
  induction fuel with
  | zero =>
    intro s
    simp only [splitIntervals, hl]
  | succ n ih =>
    intro s
    simp only [splitIntervals, hl, computeEnd_congr t1 t2 cs hl hsp s,
      stepStart_congr t1 t2 cs co hl hsp s, ih]

theorem mem_dropWhile_of_not (p : Char → Bool) (l : List Char) (x : Char)
    (hx : x ∈ l) (hpx : p x = false) : x ∈ l.dropWhile p := by
  induction l with
  | nil => cases hx
  | cons a l2 ih =>
    rw [List.dropWhile_cons]
    by_cases hpa : p a = true
    · rw [if_pos hpa]
      rcases List.mem_cons.mp hx with heq | hxl
      · subst heq
        rw [hpa] at hpx
        cases hpx
      · exact ih hxl
    · rw [if_neg hpa]
      exact hx

theorem jsTrim_nil_all (l : List Char) (h : jsTrim l = []) :
    ∀ x ∈ l, isJsWS x = true := by
  intro x hx
  unfold jsTrim at h
  rw [List.reverse_eq_nil_iff, List.dropWhile_eq_nil_iff] at h
  by_cases hw : isJsWS x = true
  · exact hw
  · have hw2 : isJsWS x = false := by
      revert hw
      cases isJsWS x <;> simp
    have hmem : x ∈ l.dropWhile isJsWS := mem_dropWhile_of_not isJsWS l x hx hw2
    have := h x (List.mem_reverse.mpr hmem)
    rw [hw2] at this
    cases this

theorem keepChunk_eq_any (l : List Char) :
    keepChunk l = l.any (fun c => !(isJsWS c)) := by
  by_cases h : ∀ x ∈ l, isJsWS x = true
  · have h1 : jsTrim l = [] := jsTrim_eq_nil_of_all l h
    have h2 : l.any (fun c => !(isJsWS c)) = false := by
      rw [List.any_eq_false]
      intro x hx
      rw [h x hx]
      simp
    rw [h2]
    simp [keepChunk, h1]
  · push_neg at h
    obtain ⟨x, hx, hxw⟩ := h
    have hxw2 : isJsWS x = false := by
      revert hxw
      cases isJsWS x <;> simp
    have h2 : l.any (fun c => !(isJsWS c)) = true :=
      List.any_eq_true.mpr ⟨x, hx, by rw [hxw2]; rfl⟩
    rw [h2]
    have h3 : jsTrim l ≠ [] := by
      intro hnil
      have := jsTrim_nil_all l hnil x hx
      rw [hxw2] at this
      cases this
    simp only [keepChunk, decide_eq_true_eq]
    exact List.length_pos.mpr h3

theorem jsSlice_getElem (t : List Char) (a b j : Nat) :
    (jsSlice t a b)[j]? = if j < b - a then t[a + j]? else none := by
  unfold jsSlice
  rw [List.getElem?_take]
  by_cases h : j < b - a
  · rw [if_pos h, if_pos h, List.getElem?_drop]
  · rw [if_neg h, if_neg h]

theorem any_notws_congr (l1 l2 : List Char)
    (h : ∀ j : Nat, (l1[j]?).map isJsWS = (l2[j]?).map isJsWS) :
    l1.any (fun c => !(isJsWS c)) = l2.any (fun c => !(isJsWS c)) := by
  apply boolEqOfIff
  rw [List.any_eq_true, List.any_eq_true]
  constructor
  · rintro ⟨x, hx, hxw⟩
    obtain ⟨j, hj⟩ := List.mem_iff_getElem?.mp hx
    have hm := h j
    rw [hj] at hm
    cases h2 : l2[j]? with
    | none =>
      rw [h2] at hm
      cases hm
    | some y =>
      rw [h2] at hm
      have hwy : isJsWS x = isJsWS y := Option.some.inj hm
      refine ⟨y, List.mem_iff_getElem?.mpr ⟨j, h2⟩, ?_⟩
      rw [← hwy]
      exact hxw
  · rintro ⟨y, hy, hyw⟩
    obtain ⟨j, hj⟩ := List.mem_iff_getElem?.mp hy
    have hm := h j
    rw [hj] at hm
    cases h2 : l1[j]? with
    | none =>
      rw [h2] at hm
      cases hm
    | some x =>
      rw [h2] at hm
      have hwx : isJsWS x = isJsWS y := Option.some.inj hm
      refine ⟨x, List.mem_iff_getElem?.mpr ⟨j, h2⟩, ?_⟩
      rw [hwx]
      exact hyw

theorem keepChunk_slice_congr (t1 t2 : List Char)
    (hws : ∀ i : Nat, (t1[i]?).map isJsWS = (t2[i]?).map isJsWS) (a b : Nat) :
    keepChunk (jsSlice t1 a b) = keepChunk (jsSlice t2 a b) := by
  rw [keepChunk_eq_any, keepChunk_eq_any]
  apply any_notws_congr
  intro j
  rw [jsSlice_getElem, jsSlice_getElem]
  by_cases hj : j < b - a
  · rw [if_pos hj, if_pos hj]
    exact hws (a + j)
  · rw [if_neg hj, if_neg hj]

theorem slice_length_congr (t1 t2 : List Char) (hl : t1.length = t2.length) (a b : Nat) :
    (jsSlice t1 a b).length = (jsSlice t2 a b).length := by
  unfold jsSlice
  rw [List.length_take, List.length_take, List.length_drop, List.length_drop, hl]

theorem chunkLengths_congr (t1 t2 : List Char)
    (hl : t1.length = t2.length)
    (hws : ∀ i : Nat, (t1[i]?).map isJsWS = (t2[i]?).map isJsWS) :
    ∀ ps : List (Nat × Nat),
      (((ps.map (fun p => jsSlice t1 p.1 p.2)).filter keepChunk).map List.length) =
      (((ps.map (fun p => jsSlice t2 p.1 p.2)).filter keepChunk).map List.length) := by
  intro ps
  induction ps with
  | nil => rfl
  | cons p ps2 ih =>
    simp only [List.map_cons, List.filter_cons]
    rw [keepChunk_slice_congr t1 t2 hws p.1 p.2]
    by_cases hk : keepChunk (jsSlice t2 p.1 p.2) = true
    · rw [if_pos hk, if_pos hk]
      simp only [List.map_cons]
      rw [slice_length_congr t1 t2 hl p.1 p.2, ih]
    · rw [if_neg hk, if_neg hk]
      exact ih

/-- C9: the chunker is a pure function of its arguments (it is embedded as a
function, so two runs on the same input are definitionally equal), and its
split positions are content-independent: for two texts that agree on which
positions hold a space and which hold whitespace, the recorded intervals
coincide, and the kept chunks have identical lengths — the cut positions
never depend on the non-whitespace characters themselves. -/
theorem c9_content_independent (t1 t2 : List Char) (cs co fuel s : Nat)
    (hws : ∀ i : Nat, (t1[i]?).map isJsWS = (t2[i]?).map isJsWS)
    (hsp : ∀ i : Nat, (t1[i]? = some ' ') ↔ (t2[i]? = some ' ')) :
    splitText t1 cs co fuel = splitText t1 cs co fuel ∧
    splitIntervals t1 cs co fuel s = splitIntervals t2 cs co fuel s ∧
    (splitText t1 cs co fuel).map (List.map List.length) =
      (splitText t2 cs co fuel).map (List.map List.length) := by
  have hl := length_eq_of_ws_agree t1 t2 hws
  refine ⟨rfl, splitIntervals_congr t1 t2 cs co hl hsp fuel s, ?_⟩
  unfold splitText
  rw [hl]
  by_cases hle : t2.length ≤ cs
  · rw [if_pos hle, if_pos hle]
    simp only [Option.map_some', List.map_cons, List.map_nil]
    rw [hl]
  · rw [if_neg hle, if_neg hle, splitIntervals_congr t1 t2 cs co hl hsp fuel 0]
    cases h : splitIntervals t2 cs co fuel 0 with
    | none => rfl
    | some ps =>
      simp only [Option.map_some']
      rw [chunkLengths_congr t1 t2 hl hws ps]

/-- C9 witness on two three-character texts with identical space and
whitespace positions but different letters. -/
theorem c9_content_independent_witness :
    splitText ("a b".data) 1 0 5 = splitText ("a b".data) 1 0 5 ∧
    splitIntervals ("a b".data) 1 0 5 0 = splitIntervals ("x z".data) 1 0 5 0 ∧
    (splitText ("a b".data) 1 0 5).map (List.map List.length) =
      (splitText ("x z".data) 1 0 5).map (List.map List.length) :=
  c9_content_independent ("a b".data) ("x z".data) 1 0 5 0
    (fun i =>
      match i with
      | 0 => by decide
      | 1 => by decide
      | 2 => by decide
      | _ + 3 => rfl)
    (fun i =>
      match i with
      | 0 => by decide
      | 1 => by decide
      | 2 => by decide
      | _ + 3 => Iff.rfl)

/-! C2 lemmas: the two continue-on-failure behaviours of the per-item loop. -/

theorem awsLoopTrue {α β : Type} (proc : Nat → α → Except String β) :
    ∀ (items : List α) (i : Nat),
      awsS3ExecuteLoop true proc items i = Except.ok (contResults proc items i) := by
  intro items
  induction items with
  | nil => intro i; rfl
  | cons a rest ih =>
    intro i
    simp only [awsS3ExecuteLoop, contResults]
    cases h : proc i a with
    | ok b =>
      rw [ih (i + 1)]
      rfl
    | error m =>
      rw [ih (i + 1)]
      rfl

theorem contResults_length {α β : Type} (proc : Nat → α → Except String β) :
    ∀ (items : List α) (i : Nat),
      (contResults proc items i).length = items.length := by
  intro items
  induction items with
  | nil => intro i; rfl
  | cons a rest ih =>
    intro i
    simp only [contResults, List.length_cons, ih (i + 1)]

theorem contResults_get {α β : Type} (proc : Nat → α → Except String β) :
    ∀ (items : List α) (i k : Nat) (a : α) (m : String), items[k]? = some a →
      proc (i + k) a = Except.error m →
      (contResults proc items i)[k]? = some (AwsRecord.failed m (i + k)) := by
  intro items
  induction items with
  | nil =>
    intro i k a m hk
    simp at hk
  | cons hd tl ih =>
    intro i k a m hk hm
    cases k with
    | zero =>
      have hhd : hd = a := by simpa using hk
      subst hhd
      rw [Nat.add_zero] at hm ⊢
      simp [contResults, hm]
    | succ k2 =>
      have hk2 : tl[k2]? = some a := by simpa using hk
      have hm2 : proc ((i + 1) + k2) a = Except.error m := by
        rw [show (i + 1) + k2 = i + (k2 + 1) by omega]
        exact hm
      simp only [contResults, List.getElem?_cons_succ]
      rw [ih (i + 1) k2 a m hk2 hm2]
      rw [show (i + 1) + k2 = i + (k2 + 1) by omega]

theorem awsLoopFalse {α β : Type} (proc : Nat → α → Except String β) :
    ∀ (items : List α) (i k : Nat) (a : α) (m : String),
      items[k]? = some a → proc (i + k) a = Except.error m →
      (∀ j b, j < k → items[j]? = some b → ∃ v, proc (i + j) b = Except.ok v) →
      awsS3ExecuteLoop false proc items i = Except.error m := by
  intro items
  induction items with
  | nil =>
    intro i k a m hk
    simp at hk
  | cons hd tl ih =>
    intro i k a m hk hm hprev
    cases k with
    | zero =>
      have hhd : hd = a := by simpa using hk
      subst hhd
      rw [Nat.add_zero] at hm
      simp [awsS3ExecuteLoop, hm]
    | succ k2 =>
      obtain ⟨v, hv⟩ := hprev 0 hd (Nat.succ_pos k2) (by simp)
      rw [Nat.add_zero] at hv
      have hk2 : tl[k2]? = some a := by simpa using hk
      have hm2 : proc ((i + 1) + k2) a = Except.error m := by
        rw [show (i + 1) + k2 = i + (k2 + 1) by omega]
        exact hm
      have hprev2 : ∀ j b, j < k2 → tl[j]? = some b →
          ∃ v2, proc ((i + 1) + j) b = Except.ok v2 := by
        intro j b hj hb
        have hres := hprev (j + 1) b (by omega) (by simpa using hb)
        rw [show i + (j + 1) = (i + 1) + j by omega] at hres
        exact hres
      simp only [awsS3ExecuteLoop, hv]
      rw [ih (i + 1) k2 a m hk2 hm2 hprev2]
      rfl

/-- C2: per-item failures are caught independently.  With the
continue-on-failure flag the loop always returns an output list with one
record per item, the failing item contributing the failed record carrying
its error message and index while later items are still processed; without
the flag the loop rethrows the first failing item's message and produces no
output list. -/
theorem c2_per_item_failure_policy {α β : Type} (proc : Nat → α → Except String β)
    (items : List α) (k : Nat) (a : α) (m : String)
    (hk : items[k]? = some a) (hf : proc k a = Except.error m)
    (hprev : ∀ j b, j < k → items[j]? = some b → ∃ v, proc j b = Except.ok v) :
    awsS3ExecuteLoop true proc items 0 = Except.ok (contResults proc items 0) ∧
    (contResults proc items 0).length = items.length ∧
    (contResults proc items 0)[k]? = some (AwsRecord.failed m k) ∧
    awsS3ExecuteLoop false proc items 0 = Except.error m := by
  refine ⟨awsLoopTrue proc items 0, contResults_length proc items 0, ?_, ?_⟩
  · have hres := contResults_get proc items 0 k a m hk (by simpa using hf)
    simpa using hres
  · exact awsLoopFalse proc items 0 k a m hk (by simpa using hf)
      (fun j b hj hb => by simpa using hprev j b hj hb)

/-- C2 witness: three items of which the second fails with message `boom`. -/
theorem c2_per_item_failure_policy_witness :
    awsS3ExecuteLoop true witnessProc witnessItems 0 =
      Except.ok (contResults witnessProc witnessItems 0) ∧
    (contResults witnessProc witnessItems 0).length = witnessItems.length ∧
    (contResults witnessProc witnessItems 0)[1]? = some (AwsRecord.failed "boom" 1) ∧
    awsS3ExecuteLoop false witnessProc witnessItems 0 = Except.error "boom" :=
  c2_per_item_failure_policy witnessProc witnessItems 1 20 "boom" rfl rfl
    (fun j b hj hb => by
      have hj0 : j = 0 := by omega
      subst hj0
      exact ⟨b, rfl⟩)

/-! C10 lemmas. -/

theorem s3vLoopFalse {α β : Type} (proc : Nat → α → Except String β) :
    ∀ (items : List α) (i k : Nat) (a : α) (m : String),
      items[k]? = some a → proc (i + k) a = Except.error m →
      (∀ j b, j < k → items[j]? = some b → ∃ v, proc (i + j) b = Except.ok v) →
      s3vInsertLoop false proc items i = Except.error m := by
  intro items
  induction items with
  | nil =>
    intro i k a m hk
    simp at hk
  | cons hd tl ih =>
    intro i k a m hk hm hprev
    cases k with
    | zero =>
      have hhd : hd = a := by simpa using hk
      subst hhd
      rw [Nat.add_zero] at hm
      simp [s3vInsertLoop, hm]
    | succ k2 =>
      obtain ⟨v, hv⟩ := hprev 0 hd (Nat.succ_pos k2) (by simp)
      rw [Nat.add_zero] at hv
      have hk2 : tl[k2]? = some a := by simpa using hk
      have hm2 : proc ((i + 1) + k2) a = Except.error m := by
        rw [show (i + 1) + k2 = i + (k2 + 1) by omega]
        exact hm
      have hprev2 : ∀ j b, j < k2 → tl[j]? = some b →
          ∃ v2, proc ((i + 1) + j) b = Except.ok v2 := by
        intro j b hj hb
        have hres := hprev (j + 1) b (by omega) (by simpa using hb)
        rw [show i + (j + 1) = (i + 1) + j by omega] at hres
        exact hres
      simp only [s3vInsertLoop, hv]
      rw [ih (i + 1) k2 a m hk2 hm2 hprev2]
      rfl

/-- C10: in the S3Vector node, when the per-item insert processing throws
(an item failed with continue-on-failure unset), the top-level execute
catches the error and then throws `Unsupported operation: insert`: the
original message `m` does not appear in the result (the conclusion is the
same fixed message for every `m`), and the per-item records accumulated
before the failure are discarded with it; the search branch behaves the same
way. -/
theorem c10_unsupported_after_catch {α β : Type} (proc : Nat → α → Except String β)
    (items : List α) (k : Nat) (a : α) (m : String)
    (searchRun : Except String (List (S3vRecord β)))
    (hk : items[k]? = some a) (hf : proc k a = Except.error m)
    (hprev : ∀ j b, j < k → items[j]? = some b → ∃ v, proc j b = Except.ok v) :
    s3vInsertLoop false proc items 0 = Except.error m ∧
    s3vExecute "insert" (s3vInsertLoop false proc items 0) searchRun =
      Except.error ("Unsupported operation: " ++ "insert") ∧
    (∀ m2 : String, s3vExecute "search" (Except.ok ([] : List (S3vRecord β)))
      (Except.error m2) = Except.error ("Unsupported operation: " ++ "search")) := by
  have h1 : s3vInsertLoop false proc items 0 = Except.error m :=
    s3vLoopFalse proc items 0 k a m hk (by simpa using hf)
      (fun j b hj hb => by simpa using hprev j b hj hb)
  refine ⟨h1, ?_, ?_⟩
  · rw [h1]
    rfl
  · intro m2
    rfl

/-- C10 witness: the second of three items fails with `boom`; the node
surfaces only `Unsupported operation: insert`. -/
theorem c10_unsupported_after_catch_witness :
    s3vInsertLoop false witnessProc witnessItems 0 = Except.error "boom" ∧
    s3vExecute "insert" (s3vInsertLoop false witnessProc witnessItems 0)
      (Except.ok []) = Except.error ("Unsupported operation: " ++ "insert") ∧
    (∀ m2 : String, s3vExecute "search" (Except.ok ([] : List (S3vRecord Nat)))
      (Except.error m2) = Except.error ("Unsupported operation: " ++ "search")) :=
  c10_unsupported_after_catch witnessProc witnessItems 1 20 "boom" (Except.ok []) rfl rfl
    (fun j b hj hb => by
      have hj0 : j = 0 := by omega
      subst hj0
      exact ⟨b, rfl⟩)

/-! C6 lemmas. -/

theorem batchSlicesGo_flatten {α : Type} (bs : Nat) (hbs : 0 < bs) :
    ∀ (fuel : Nat) (l : List α), l.length ≤ fuel →
      (batchSlicesGo bs fuel l).flatten = l := by
  intro fuel
  induction fuel with
  | zero =>
    intro l hl
    have hnil : l = [] := List.eq_nil_of_length_eq_zero (Nat.le_zero.mp hl)
    subst hnil
    rfl
  | succ n ih =>
    intro l hl
    cases l with
    | nil => rfl
    | cons a l2 =>
      cases bs with
      | zero => omega
      | succ b =>
        simp only [batchSlicesGo]
        rw [List.flatten_cons,
          ih (l2.drop (b + 1 - 1)) (by rw [List.length_drop]; simp at hl; omega)]
        simp only [Nat.add_sub_cancel]
        rw [List.take_succ_cons, List.cons_append, List.take_append_drop]

theorem batchSlicesGo_mem {α : Type} (bs : Nat) (hbs : 0 < bs) :
    ∀ (fuel : Nat) (l : List α), ∀ c ∈ batchSlicesGo bs fuel l,
      c.length ≤ bs ∧ c ≠ [] := by
  intro fuel
  induction fuel with
  | zero =>
    intro l c hc
    cases l <;> simp [batchSlicesGo] at hc
  | succ n ih =>
    intro l c hc
    cases l with
    | nil => simp [batchSlicesGo] at hc
    | cons a l2 =>
      simp only [batchSlicesGo] at hc
      rcases List.mem_cons.mp hc with heq | htl
      · subst heq
        constructor
        · simp [List.length_take]
        · cases bs with
          | zero => omega
          | succ b => simp [List.take_succ_cons]
      · exact ih (l2.drop (bs - 1)) c htl

theorem attemptBatches_stop {α : Type} (ok : List α → Bool) :
    ∀ (L : List (List α)) (k : Nat) (b : List α), L[k]? = some b → ok b = false →
      (∀ j c, j < k → L[j]? = some c → ok c = true) →
      attemptBatches ok L = (L.take k, some b) := by
  intro L
  induction L with
  | nil =>
    intro k b hk
    simp at hk
  | cons hd tl ih =>
    intro k b hk hb hprev
    cases k with
    | zero =>
      have hhd : hd = b := by simpa using hk
      subst hhd
      simp [attemptBatches, hb]
    | succ k2 =>
      have hhd : ok hd = true := hprev 0 hd (Nat.succ_pos _) (by simp)
      have hk2 : tl[k2]? = some b := by simpa using hk
      have hprev2 : ∀ j c, j < k2 → tl[j]? = some c → ok c = true := by
        intro j c hj hc
        exact hprev (j + 1) c (by omega) (by simpa using hc)
      simp only [attemptBatches, hhd, if_true]
      rw [ih k2 b hk2 hb hprev2, List.take_succ_cons]

theorem attemptBatches_all {α : Type} :
    ∀ L : List (List α), attemptBatches (fun _ => true) L = (L, none) := by
  intro L
  induction L with
  | nil => rfl
  | cons hd tl ih => simp [attemptBatches, ih]

set_option maxRecDepth 8192 in
/-- C6: the insert records are split in order into consecutive batches of at
most the batch size: the batches concatenate back to the record list, every
batch is non-empty and no longer than the batch size, unset or zero
configured batch sizes fall back to 100, one provider call is issued per
batch sequentially and in order with a failure on batch `k` stopping the
loop (batches before `k` stay inserted, none after `k` is attempted), and
150 records with batch size 100 yield exactly the two calls of sizes 100
then 50. -/
theorem c6_batch_partition {α : Type} (l : List α) (bs k : Nat) (ok : List α → Bool)
    (b : List α) (hbs : 0 < bs) :
    (batchSlices bs l).flatten = l ∧
    (∀ c ∈ batchSlices bs l, c.length ≤ bs ∧ c ≠ []) ∧
    effBatchSize none = 100 ∧ effBatchSize (some 0) = 100 ∧
    ((batchSlices bs l)[k]? = some b → ok b = false →
      (∀ j c, j < k → (batchSlices bs l)[j]? = some c → ok c = true) →
      attemptBatches ok (batchSlices bs l) = ((batchSlices bs l).take k, some b)) ∧
    attemptBatches (fun _ => true) (batchSlices bs l) = (batchSlices bs l, none) ∧
    (batchSlices 100 (List.range 150)).map List.length = [100, 50] := by
  have hbsne : ¬ bs = 0 := by omega
  refine ⟨?_, ?_, rfl, rfl, ?_, attemptBatches_all _, ?_⟩
  · unfold batchSlices
    rw [if_neg hbsne]
    exact batchSlicesGo_flatten bs hbs l.length l (Nat.le_refl _)
  · unfold batchSlices
    rw [if_neg hbsne]
    exact batchSlicesGo_mem bs hbs l.length l
  · intro h1 h2 h3
    exact attemptBatches_stop ok (batchSlices bs l) k b h1 h2 h3
  · decide

set_option maxRecDepth 8192 in
/-- C6 witness at Scenario B: 150 records, batch size 100. -/
theorem c6_batch_partition_witness :
    (batchSlices 100 (List.range 150)).flatten = List.range 150 ∧
    (∀ c ∈ batchSlices 100 (List.range 150), c.length ≤ 100 ∧ c ≠ []) ∧
    effBatchSize none = 100 ∧ effBatchSize (some 0) = 100 ∧
    ((batchSlices 100 (List.range 150))[0]? = some [] →
      (fun _ => true : List Nat → Bool) [] = false →
      (∀ j c, j < 0 → (batchSlices 100 (List.range 150))[j]? = some c →
        (fun _ => true : List Nat → Bool) c = true) →
      attemptBatches (fun _ => true) (batchSlices 100 (List.range 150)) =
        ((batchSlices 100 (List.range 150)).take 0, some [])) ∧
    attemptBatches (fun _ => true) (batchSlices 100 (List.range 150)) =
      (batchSlices 100 (List.range 150), none) ∧
    (batchSlices 100 (List.range 150)).map List.length = [100, 50] :=
  c6_batch_partition (List.range 150) 100 0 (fun _ => true) [] (by decide)

/-- C7: `ensureIndexExists` treats a provider success and every
already-exists error signal (names `ResourceAlreadyExistsException` and
`ConflictException`, or a message containing `already exists`) as a no-op
success, while any other provider error propagates wrapped in the terminal
failure message; against the modelled provider, two calls in a row with the
same parameters both succeed, the second as a no-op. -/
theorem c7_ensure_index_idempotent (e1 e2 : ProviderError) (present : Bool)
    (h1 : isAlreadyExists e1 = true) (h2 : isAlreadyExists e2 = false) :
    ensureIndexExists (Except.ok ()) = Except.ok () ∧
    ensureIndexExists (Except.error e1) = Except.ok () ∧
    ensureIndexExists (Except.error e2) =
      Except.error ("Failed to ensure vector index exists: " ++ errorText e2) ∧
    (ensureIndexOn present).2 = Except.ok () ∧
    (ensureIndexOn (ensureIndexOn present).1).2 = Except.ok () := by
  refine ⟨rfl, ?_, ?_, ?_, ?_⟩
  · simp [ensureIndexExists, h1]
  · simp [ensureIndexExists, h2]
  · cases present <;> rfl
  · cases present <;> rfl

/-- C7 witness: a `ConflictException` is absorbed, an `AccessDenied` error
with an unrelated message is terminal, and two modelled calls in a row both
succeed. -/
theorem c7_ensure_index_idempotent_witness :
    ensureIndexExists (Except.ok ()) = Except.ok () ∧
    ensureIndexExists (Except.error ⟨"ConflictException", none⟩) = Except.ok () ∧
    ensureIndexExists (Except.error ⟨"AccessDenied", some "no permission"⟩) =
      Except.error ("Failed to ensure vector index exists: " ++
        errorText ⟨"AccessDenied", some "no permission"⟩) ∧
    (ensureIndexOn false).2 = Except.ok () ∧
    (ensureIndexOn (ensureIndexOn false).1).2 = Except.ok () :=
  c7_ensure_index_idempotent ⟨"ConflictException", none⟩
    ⟨"AccessDenied", some "no permission"⟩ false (by decide) (by decide)

/-- C8 (counterexample): the claim fails as stated on the empty string.  An
empty metadata filter is a syntactically invalid JSON string (the oracle
rejects every string, matching `JSON.parse` on the empty string), yet the
source's truthiness test skips parsing entirely: the search proceeds to the
embedding and query calls and no configuration error is raised. -/
theorem c8_empty_filter_counterexample :
    parseNoneFn "" = none ∧
    searchItemRun (some "") parseNoneFn =
      ([ExtCall.embed, ExtCall.query], Except.ok ()) :=
  ⟨rfl, rfl⟩

/-- C8 (amended): for every NON-EMPTY metadata-filter string the JSON parser
rejects, the item fails with the terminal configuration error
`Invalid JSON in metadata filter` and no external call is made — the call
trace is empty, so the error precedes any embedding call and any
vector-store query; an empty-string filter is treated as absent instead. -/
theorem c8_invalid_filter_blocks {φ : Type} (s : String) (parse : String → Option φ)
    (hne : s ≠ "") (hbad : parse s = none) :
    searchItemRun (some s) parse = ([], Except.error "Invalid JSON in metadata filter") := by
  simp [searchItemRun, hne, hbad]

/-- C8 (amended) witness on a concrete malformed filter string. -/
theorem c8_invalid_filter_blocks_witness :
    searchItemRun (some "not json") parseNoneFn =
      ([], Except.error "Invalid JSON in metadata filter") :=
  c8_invalid_filter_blocks "not json" parseNoneFn (by decide) rfl

end N8nS3
